import Mathlib

/-!
Verification of the tsc time-series compression package (Gorilla-style
delta-of-delta timestamp encoding and XOR value encoding).

The Series codec is translated from the package source (tsc.go).  The
bit-level buffer it builds on lives in a separate bitUtil package whose
source is not part of this repository snapshot; its operations
(AddValueToBitStream, ReadValueFromBitStream, FindTheFirstZerobit, Clz,
Ctz) are modelled from the specification, section 4.1.

Modelling conventions:
* uint64 values are Nat, reduced modulo 2^64 where the code stores them;
* int64 values are Int, with wrapping captured by wrap64;
* float64 values are represented by their IEEE-754 bit patterns (Nat),
  which is faithful because the code only ever touches values through
  math.Float64bits / math.Float64frombits and XOR of the patterns;
* the bitstream is the list of written bits (MSB-first order), plus the
  read cursor; num_bits is the list length;
* Go methods that mutate the receiver through a pointer become functions
  returning the new Series; fallible reads return the error together
  with the (possibly mutated) Series, mirroring the pointer mutation
  that survives an error return.
-/

set_option maxRecDepth 8192

/-- The single error kind of the codec: a read past the written bits. -/
inductive Err where
  | shortRead
deriving DecidableEq, Repr

/-- Low `w` bits of `v`, most significant first: the bit order used by
AddValueToBitStream per the specification, section 4.1. -/
def natToBits (v : Nat) : Nat → List Bool
  | 0 => []
  | w + 1 => v.testBit w :: natToBits v w

/-- Value of an MSB-first bit list, right-justified in a machine word. -/
def bitsToNat : List Bool → Nat
  | [] => 0
  | b :: rest => (cond b 1 0) * 2 ^ rest.length + bitsToNat rest

/-- Reinterpretation of an integer as a signed 64-bit value (wrapping). -/
def wrap64 (z : Int) : Int := (z + 2 ^ 63) % 2 ^ 64 - 2 ^ 63

/-- Conversion of an integer to uint64 (the low 64 bits, as a Nat). -/
def u64ofInt (z : Int) : Nat := (z % 2 ^ 64).toNat

/-- Wrapping uint64 subtraction. -/
def sub64 (a b : Nat) : Nat := u64ofInt ((a : Int) - (b : Int))

/-- Modelled from the spec: the append-only bit buffer of the bitUtil
package (source not in this snapshot).  `bits` is the written sequence
(so num_bits is `bits.length`), `bitPos` the read cursor. -/
structure BitStream where
  bits : List Bool
  bitPos : Nat
deriving DecidableEq, Repr

/-- Modelled from the spec: bitUtil.AddValueToBitStream writes the low
`w` bits of `v`, most significant first, at the end of the stream. -/
def BitStream.addValueToBitStream (bs : BitStream) (v : Nat) (w : Nat) : BitStream :=
  { bs with bits := bs.bits ++ natToBits v w }

/-- Modelled from the spec: bitUtil.ReadValueFromBitStream reads `w`
bits at the cursor, MSB-first, right-justified; fails with ShortRead
when fewer than `w` bits remain, leaving the cursor in place. -/
def BitStream.readValueFromBitStream (bs : BitStream) (w : Nat) :
    Except Err (Nat × BitStream) :=
  if bs.bitPos + w ≤ bs.bits.length then
    .ok (bitsToNat ((bs.bits.drop bs.bitPos).take w), { bs with bitPos := bs.bitPos + w })
  else
    .error .shortRead

/-- Scan of at most `max` bits for the first zero: index of the first
zero bit, `max` when the first `max` bits are all ones, and ShortRead
when the stream ends before that is settled. -/
def findZero : List Bool → Nat → Except Err Nat
  | _, 0 => .ok 0
  | [], _ + 1 => .error .shortRead
  | false :: _, _ + 1 => .ok 0
  | true :: rest, m + 1 =>
    match findZero rest m with
    | .ok k => .ok (k + 1)
    | .error e => .error e

/-- Modelled from the spec: bitUtil.FindTheFirstZerobit returns the
offset of the first zero among the next `max` bits and advances the
cursor past it (by `max` when all `max` bits are ones). -/
def BitStream.findTheFirstZerobit (bs : BitStream) (max : Nat) :
    Except Err (Nat × BitStream) :=
  match findZero (bs.bits.drop bs.bitPos) max with
  | .ok k => .ok (k, { bs with bitPos := bs.bitPos + min (k + 1) max })
  | .error e => .error e

/-- Bit length of a natural number, with fuel (64 at every use site). -/
def bitLenAux : Nat → Nat → Nat
  | 0, _ => 0
  | fuel + 1, x => if x = 0 then 0 else bitLenAux fuel (x / 2) + 1

/-- Modelled from the spec: bitUtil.Clz, the count of leading zeros of
a uint64. -/
def clz64 (x : Nat) : Nat := 64 - bitLenAux 64 x

/-- Trailing-zero count with fuel (64 at every use site). -/
def ctzAux : Nat → Nat → Nat
  | 0, _ => 0
  | fuel + 1, x => if x % 2 = 1 then 0 else ctzAux fuel (x / 2) + 1

/-- Modelled from the spec: bitUtil.Ctz, the count of trailing zeros of
a uint64 (64 on zero, which the codec never passes). -/
def ctz64 (x : Nat) : Nat := if x = 0 then 64 else ctzAux 64 x

/-- The Series state, translated field by field from the source struct:
one bitstream plus independent writer and reader codec states. -/
structure Series where
  bs : BitStream
  prevTimeWrite : Nat
  prevTimeDeltaWrite : Int
  prevTimeRead : Nat
  prevTimeDeltaRead : Int
  prevValueWrite : Nat
  prevLeadingWrite : Nat
  prevTrailingWrite : Nat
  prevValueRead : Nat
  prevLeadingRead : Nat
  prevTrailingRead : Nat
deriving DecidableEq, Repr

/-- The zero value of the Series struct: empty stream, zero state. -/
def emptySeries : Series :=
  { bs := { bits := [], bitPos := 0 }
    prevTimeWrite := 0, prevTimeDeltaWrite := 0
    prevTimeRead := 0, prevTimeDeltaRead := 0
    prevValueWrite := 0, prevLeadingWrite := 0, prevTrailingWrite := 0
    prevValueRead := 0, prevLeadingRead := 0, prevTrailingRead := 0 }

/-- Payload widths of the four delta-of-delta buckets, in table order
(the bitsForvalue column of timestampEncodings in the source). -/
def tsPayloadWidth (index : Nat) : Nat :=
  if index = 0 then 7 else if index = 1 then 9 else if index = 2 then 12 else 32

/-- Series.appendTimestamp from the source.  The first timestamp goes
out as 32 absolute bits; afterwards the delta-of-delta is encoded with
a single zero bit when it vanishes and otherwise through the bucket
table (control values 2, 6, 14, 15 in 2, 3, 4, 4 bits; payload widths
7, 9, 12, 32).  The source computes the bucket test value as
int64(math.Abs(float64(dd2))); that expression equals `dd2.natAbs` for
every |dd2| < 2^53, and for larger |dd2| the float64 rounding cannot
move the value across any of the bucket thresholds (all below 2^32),
so natAbs is used here.  Note the loop has no fallthrough: when no
bucket test holds, nothing is written. -/
def Series.appendTimestamp (s : Series) (timestamp : Nat) : Series :=
  if s.bs.bits.isEmpty then
    { s with bs := s.bs.addValueToBitStream timestamp 32
             prevTimeWrite := timestamp % 2 ^ 64
             prevTimeDeltaWrite := 60 }
  else
    let delta := wrap64 ((timestamp : Int) - (s.prevTimeWrite : Int))
    let dd := wrap64 (delta - s.prevTimeDeltaWrite)
    if dd = 0 then
      { s with prevTimeWrite := timestamp % 2 ^ 64
               bs := s.bs.addValueToBitStream 0 1 }
    else
      let dd2 := if 0 < dd then dd - 1 else dd
      let absValue := dd2.natAbs
      let bs2 :=
        if absValue < 2 ^ 6 then
          (s.bs.addValueToBitStream 2 2).addValueToBitStream (u64ofInt (dd2 + 2 ^ 6)) 7
        else if absValue < 2 ^ 8 then
          (s.bs.addValueToBitStream 6 3).addValueToBitStream (u64ofInt (dd2 + 2 ^ 8)) 9
        else if absValue < 2 ^ 11 then
          (s.bs.addValueToBitStream 14 4).addValueToBitStream (u64ofInt (dd2 + 2 ^ 11)) 12
        else if absValue < 2 ^ 31 then
          (s.bs.addValueToBitStream 15 4).addValueToBitStream (u64ofInt (dd2 + 2 ^ 31)) 32
        else
          s.bs
      { s with bs := bs2
               prevTimeWrite := timestamp % 2 ^ 64
               prevTimeDeltaWrite := delta }

/-- Series.readNextTimestamp from the source.  At cursor zero the
absolute 32-bit timestamp is read (the default delta 60 is installed
before the read, so it survives a failing read, as in the source).
Otherwise the unary control prefix selects the bucket, the biased
payload is unbiased, the reserved zero slot is skipped over, and the
recovered delta-of-delta feeds the running delta and timestamp. -/
def Series.readNextTimestamp (s : Series) : Except Err Nat × Series :=
  if s.bs.bitPos = 0 then
    let s1 := { s with prevTimeDeltaRead := 60 }
    match s1.bs.readValueFromBitStream 32 with
    | .error e => (.error e, s1)
    | .ok (res, bs1) => (.ok res, { s1 with bs := bs1, prevTimeRead := res })
  else
    match s.bs.findTheFirstZerobit 4 with
    | .error e => (.error e, s)
    | .ok (index, bs1) =>
      if index = 0 then
        let t2 := (s.prevTimeRead + u64ofInt s.prevTimeDeltaRead) % 2 ^ 64
        (.ok t2, { s with bs := bs1, prevTimeRead := t2 })
      else
        let w := tsPayloadWidth (index - 1)
        match bs1.readValueFromBitStream w with
        | .error e => (.error e, { s with bs := bs1 })
        | .ok (decodeValue, bs2) =>
          let v1 := wrap64 (wrap64 (decodeValue : Int) - 2 ^ (w - 1))
          let v2 := if 0 ≤ v1 then wrap64 (v1 + 1) else v1
          let d2 := wrap64 (s.prevTimeDeltaRead + v2)
          let t2 := (s.prevTimeRead + u64ofInt d2) % 2 ^ 64
          (.ok t2, { s with bs := bs2, prevTimeDeltaRead := d2, prevTimeRead := t2 })

/-- Series.appendValue from the source: a zero XOR is one zero bit;
otherwise a one bit, then either the reuse sub-format (second control
bit one, payload in the previous block framing) or the fresh sub-format
(second control bit zero, 5-bit clamped leading count, 6-bit
blockSize-1, blockSize payload bits). -/
def Series.appendValue (s : Series) (value : Nat) : Series :=
  let xorWithprev := Nat.xor value s.prevValueWrite
  if xorWithprev = 0 then
    { s with bs := s.bs.addValueToBitStream 0 1 }
  else
    let bs1 := s.bs.addValueToBitStream 1 1
    let leading0 := clz64 xorWithprev
    let trailing := ctz64 xorWithprev
    let leading := if 31 < leading0 then 31 else leading0
    let blockSize := sub64 (sub64 64 leading) trailing
    let expectedSize := 5 + 6 + blockSize
    let prevBlockInformationSize := sub64 (sub64 64 s.prevLeadingWrite) s.prevTrailingWrite
    if s.prevLeadingWrite ≤ leading ∧ s.prevTrailingWrite ≤ trailing ∧
        prevBlockInformationSize < expectedSize then
      { s with bs := (bs1.addValueToBitStream 1 1).addValueToBitStream
                 (xorWithprev >>> s.prevTrailingWrite) prevBlockInformationSize
               prevValueWrite := value }
    else
      { s with bs := (((bs1.addValueToBitStream 0 1).addValueToBitStream leading 5
                 ).addValueToBitStream (blockSize - 1) 6
                 ).addValueToBitStream (xorWithprev >>> trailing) blockSize
               prevValueWrite := value
               prevLeadingWrite := leading
               prevTrailingWrite := trailing }

/-- Series.readNextValue from the source, mirroring appendValue.  In
the fresh sub-format the source assigns prevTrailingRead before the
payload read, so that assignment survives a failing payload read. -/
def Series.readNextValue (s : Series) : Except Err Nat × Series :=
  match s.bs.readValueFromBitStream 1 with
  | .error e => (.error e, s)
  | .ok (nonZeroValue, bs1) =>
    if nonZeroValue = 0 then
      (.ok s.prevValueRead, { s with bs := bs1 })
    else
      match bs1.readValueFromBitStream 1 with
      | .error e => (.error e, { s with bs := bs1 })
      | .ok (usePrev, bs2) =>
        if usePrev = 1 then
          match bs2.readValueFromBitStream
              (sub64 (sub64 64 s.prevLeadingRead) s.prevTrailingRead) with
          | .error e => (.error e, { s with bs := bs2 })
          | .ok (xv, bs3) =>
            let xorValue := (xv <<< s.prevTrailingRead) % 2 ^ 64
            let value := Nat.xor xorValue s.prevValueRead
            (.ok value, { s with bs := bs3, prevValueRead := value })
        else
          match bs2.readValueFromBitStream 5 with
          | .error e => (.error e, { s with bs := bs2 })
          | .ok (leading, bs3) =>
            match bs3.readValueFromBitStream 6 with
            | .error e => (.error e, { s with bs := bs3 })
            | .ok (bsz0, bs4) =>
              let blockSize := bsz0 + 1
              let trailing := sub64 (sub64 64 leading) blockSize
              match bs4.readValueFromBitStream blockSize with
              | .error e => (.error e, { s with bs := bs4, prevTrailingRead := trailing })
              | .ok (xv, bs5) =>
                let xorValue := (xv <<< trailing) % 2 ^ 64
                let value := Nat.xor xorValue s.prevValueRead
                (.ok value, { s with bs := bs5
                                     prevTrailingRead := trailing
                                     prevLeadingRead := leading
                                     prevValueRead := value })

/-- Series.Append from the source: the timestamp frame then the value
frame. -/
def Series.Append (s : Series) (timestamp value : Nat) : Series :=
  (s.appendTimestamp timestamp).appendValue value

/-- Series.Read from the source: the timestamp decoder then the value
decoder; the first error wins, and state mutated before the error stays
mutated (the receiver is a pointer in the source). -/
def Series.Read (s : Series) : Except Err (Nat × Nat) × Series :=
  match s.readNextTimestamp with
  | (.error e, s1) => (.error e, s1)
  | (.ok t, s1) =>
    match s1.readNextValue with
    | (.error e, s2) => (.error e, s2)
    | (.ok v, s2) => (.ok (t, v), s2)

/-- IEEE-754 bit pattern of the double 761.0, the value of the first
demonstration point. -/
def val761 : Nat := 0x4087C80000000000

/-- Decidable equality for Except results, so that concrete codec runs
can be checked by evaluation. -/
instance {ε α : Type} [DecidableEq ε] [DecidableEq α] : DecidableEq (Except ε α) := fun a b =>
  match a, b with
  | .error e, .error f =>
    if h : e = f then .isTrue (congrArg Except.error h)
    else .isFalse (fun c => h (Except.error.inj c))
  | .error _, .ok _ => .isFalse (fun c => Except.noConfusion c)
  | .ok _, .error _ => .isFalse (fun c => Except.noConfusion c)
  | .ok x, .ok y =>
    if h : x = y then .isTrue (congrArg Except.ok h)
    else .isFalse (fun c => h (Except.ok.inj c))

/-- The series built by appending (100, 761.0) and then a sample whose
timestamp jumps by 2^31 + 61 seconds, keeping both timestamps below
2^32.  The second delta-of-delta is 2^31 + 1, whose adjusted value
2^31 fails every bucket test, so its timestamp frame is dropped. -/
def twoAppendSeries : Series :=
  (emptySeries.Append 100 val761).Append (2 ^ 31 + 161) val761

/-- The series of two appends whose dropped timestamp frame leaves the
reader misaligned inside the second value frame, so that a third Read
still finds parseable bits. -/
def overreadSeries : Series :=
  (emptySeries.Append 0 (2 ^ 63)).Append (2 ^ 31 + 61) 1

/-- The delta computed by the encoder for a non-first timestamp:
int64(timestamp - prevTimeWrite) in the source. -/
abbrev deltaOf (s : Series) (t : Nat) : Int :=
  wrap64 ((t : Int) - (s.prevTimeWrite : Int))

/-- The delta-of-delta computed by the encoder for a non-first
timestamp. -/
abbrev ddOf (s : Series) (t : Nat) : Int :=
  wrap64 (deltaOf s t - s.prevTimeDeltaWrite)

/-- The adjusted delta-of-delta (the dd > 0 slot shift in the
source). -/
abbrev adjOf (s : Series) (t : Nat) : Int :=
  if 0 < ddOf s t then ddOf s t - 1 else ddOf s t

/-- The clamped leading-zero count computed by appendValue. -/
abbrev clampLeading (x : Nat) : Nat :=
  if 31 < clz64 x then 31 else clz64 x

/-- The XOR block width computed by appendValue. -/
abbrev blockSizeOf (x : Nat) : Nat :=
  sub64 (sub64 64 (clampLeading x)) (ctz64 x)

/-- Sequential append of a list of (timestamp, value-pattern) samples. -/
def appendSeq (s : Series) (l : List (Nat × Nat)) : Series :=
  l.foldl (fun acc p => acc.Append p.1 p.2) s

/-- The minute-cadence constant stream of the compression-floor
property: N samples (t0 + 60 i, c). -/
def constStream (t0 c N : Nat) : List (Nat × Nat) :=
  (List.range N).map (fun i => (t0 + 60 * i, c))

/-- Number of bits of the value frame emitted for pattern `c` by a
fresh value writer (the first value frame of a series). -/
def firstValueFrameLen (c : Nat) : Nat := (emptySeries.appendValue c).bs.bits.length

/-- Number of bits appendValue emits as a function of the value and the
writer state, following the three branches of the source. -/
def valueFrameLenOf (v pv pL pT : Nat) : Nat :=
  if Nat.xor v pv = 0 then 1
  else if pL ≤ clampLeading (Nat.xor v pv) ∧ pT ≤ ctz64 (Nat.xor v pv) ∧
      sub64 (sub64 64 pL) pT < 5 + 6 + blockSizeOf (Nat.xor v pv) then
    2 + sub64 (sub64 64 pL) pT
  else
    2 + 5 + 6 + blockSizeOf (Nat.xor v pv)

/-- The writer state for the C5 witness: one sample (100, 761.0). -/
def c5wSeries : Series := emptySeries.Append 100 val761

/-- The second value of the C5 witness: its XOR against 761.0 is a
10-bit window at offset 43, fitting the previous 20-bit block. -/
def c5wValue : Nat := Nat.xor val761 (1023 <<< 43)

/-- A reader for the C5 witness positioned at the start of the second
value frame with the reader framing state of the first frame. -/
def c5wReader : Series :=
  { c5wSeries.appendValue c5wValue with
    bs := { (c5wSeries.appendValue c5wValue).bs with bitPos := 65 }
    prevLeadingRead := 1
    prevTrailingRead := 43 }

/-- C1: the round-trip property fails on the code for in-range
timestamps: after appending (100, 761.0) and (2^31 + 161, 761.0), both
timestamps below 2^32, the second Read returns ShortRead instead of
the second sample, because the encoder emitted no timestamp frame for
the delta-of-delta 2^31 + 1. -/
theorem c1_roundtrip_fails_on_large_dd :
    twoAppendSeries.Read.1 = .ok (100, val761) ∧
      twoAppendSeries.Read.2.Read.1 = .error .shortRead := by
  decide

/-- C2: a non-zero delta-of-delta exists (namely 2^31 + 1, adjusted to
2^31) for which the encoder emits no control prefix and no payload at
all: the bitstream is unchanged by the timestamp append, refuting that
a frame is emitted for every possible non-zero dd. -/
theorem c2_no_frame_emitted_for_large_dd :
    (wrap64 (wrap64 ((2 ^ 31 + 161 : Int) - ((emptySeries.Append 100 val761).prevTimeWrite : Int))
        - (emptySeries.Append 100 val761).prevTimeDeltaWrite) = 2 ^ 31 + 1) ∧
      ((emptySeries.Append 100 val761).appendTimestamp (2 ^ 31 + 161)).bs.bits =
        (emptySeries.Append 100 val761).bs.bits := by
  decide

/-- C3 counterexample: after appending the single sample
(1440583200, 761.0) the bitstream holds 65 bits, not
32 + 1 + 5 + 6 + k = 64 as claimed: the claimed formula counts only one
of the two value control bits the code writes. -/
theorem c3_counterexample :
    (emptySeries.Append 1440583200 val761).bs.bits.length ≠
      32 + 1 + 5 + 6 + (64 - clz64 val761 - ctz64 val761) := by
  decide

/-- C3 amended: the single sample (1440583200, 761.0) produces
num_bits = 32 + 2 + 5 + 6 + k with k = 64 - clz - ctz of the bit
pattern of 761.0 (two value control bits precede the leading and
block-size fields); the first Read returns the sample and the second
Read fails with ShortRead. -/
theorem c3_single_sample :
    (emptySeries.Append 1440583200 val761).bs.bits.length =
        32 + 2 + 5 + 6 + (64 - clz64 val761 - ctz64 val761) ∧
      (emptySeries.Append 1440583200 val761).Read.1 = .ok (1440583200, val761) ∧
      (emptySeries.Append 1440583200 val761).Read.2.Read.1 = .error .shortRead := by
  decide

/-- C8: on a fresh Series the first Read fails with ShortRead, but the
under-read property does not hold in general: after two appends whose
second timestamp frame was dropped by the encoder, the third Read
succeeds (returning a sample never appended) instead of failing with
ShortRead. -/
theorem c8_overread :
    emptySeries.Read.1 = .error .shortRead ∧
      overreadSeries.Read.2.Read.2.Read.1 = .ok (2 ^ 64 - 258, 0) := by
  decide

/-- C10: Read is not atomic on error: on this series the second Read
decodes a timestamp, then fails with ShortRead in the value decoder,
yet the reader state keeps its post-timestamp-decode values (the
cursor moved from 65 to 66, prev_time_r from 100 to 160, prev_delta_r
holds 60), so a retry does not resume from the pre-Read state. -/
theorem c10_read_error_state_advances :
    twoAppendSeries.Read.2.Read.1 = .error .shortRead ∧
      twoAppendSeries.Read.2.prevTimeRead = 100 ∧
      twoAppendSeries.Read.2.Read.2.prevTimeRead = 160 ∧
      twoAppendSeries.Read.2.bs.bitPos = 65 ∧
      twoAppendSeries.Read.2.Read.2.bs.bitPos = 66 ∧
      twoAppendSeries.Read.2.Read.2.prevTimeDeltaRead = 60 := by
  decide

theorem natToBits_length (v w : Nat) : (natToBits v w).length = w := by
  induction w with
  | zero => rfl
  | succ w ih => simp [natToBits, ih]

theorem bitsToNat_natToBits (v w : Nat) : bitsToNat (natToBits v w) = v % 2 ^ w := by
  induction w with
  | zero => simp [natToBits, bitsToNat, Nat.mod_one]
  | succ w ih =>
    have hmul : v % (2 ^ w * 2) = v % 2 ^ w + 2 ^ w * (v / 2 ^ w % 2) := Nat.mod_mul
    have hpow : 2 ^ (w + 1) = 2 ^ w * 2 := by ring
    simp only [natToBits, bitsToNat, natToBits_length, ih, Nat.testBit_to_div_mod]
    rcases Nat.mod_two_eq_zero_or_one (v / 2 ^ w) with h | h <;>
      simp [h, hpow, hmul]
    omega

theorem wrap64_eq_self {z : Int} (h1 : -(2 ^ 63) ≤ z) (h2 : z < 2 ^ 63) :
    wrap64 z = z := by
  unfold wrap64
  norm_num at h1 h2 ⊢
  omega

theorem wrap64_lb (z : Int) : -(2 ^ 63) ≤ wrap64 z := by
  unfold wrap64
  norm_num
  omega

theorem wrap64_ub (z : Int) : wrap64 z < 2 ^ 63 := by
  unfold wrap64
  norm_num
  omega

theorem wrap64_mod (z : Int) : wrap64 z % 2 ^ 64 = z % 2 ^ 64 := by
  unfold wrap64
  norm_num
  omega

theorem wrap64_congr {a b : Int} (h : a % 2 ^ 64 = b % 2 ^ 64) :
    wrap64 a = wrap64 b := by
  unfold wrap64
  norm_num at h ⊢
  omega

theorem u64ofInt_cast (z : Int) : (u64ofInt z : Int) = z % 2 ^ 64 := by
  unfold u64ofInt
  norm_num
  omega

theorem sub64_small {a b : Nat} (hb : b ≤ a) (ha : a < 2 ^ 64) :
    sub64 a b = a - b := by
  unfold sub64 u64ofInt
  norm_num at ha ⊢
  omega

theorem addValueToBitStream_bits (bs : BitStream) (v w : Nat) :
    (bs.addValueToBitStream v w).bits = bs.bits ++ natToBits v w := rfl

theorem addValueToBitStream_bitPos (bs : BitStream) (v w : Nat) :
    (bs.addValueToBitStream v w).bitPos = bs.bitPos := rfl

theorem readValueFromBitStream_at (bs : BitStream) (pre rest : List Bool) (v w : Nat)
    (hb : bs.bits = pre ++ natToBits v w ++ rest) (hp : bs.bitPos = pre.length) :
    bs.readValueFromBitStream w =
      .ok (v % 2 ^ w, { bs with bitPos := pre.length + w }) := by
  have hb2 : bs.bits = pre ++ (natToBits v w ++ rest) := by
    rw [hb, List.append_assoc]
  have hlen : bs.bitPos + w ≤ bs.bits.length := by
    rw [hb2, hp, List.length_append, List.length_append, natToBits_length]
    omega
  have hdrop : bs.bits.drop bs.bitPos = natToBits v w ++ rest := by
    rw [hb2, hp, List.drop_left]
  have htake : (bs.bits.drop bs.bitPos).take w = natToBits v w := by
    rw [hdrop, List.take_left' (natToBits_length v w)]
  unfold BitStream.readValueFromBitStream
  rw [if_pos hlen, htake, bitsToNat_natToBits, hp]

theorem findZero_bit0 (rest : List Bool) : findZero (false :: rest) 4 = .ok 0 := rfl

theorem findZero_ctrl1 (rest : List Bool) :
    findZero (true :: false :: rest) 4 = .ok 1 := rfl

theorem findZero_ctrl2 (rest : List Bool) :
    findZero (true :: true :: false :: rest) 4 = .ok 2 := rfl

theorem findZero_ctrl3 (rest : List Bool) :
    findZero (true :: true :: true :: false :: rest) 4 = .ok 3 := rfl

theorem findZero_ctrl4 (rest : List Bool) :
    findZero (true :: true :: true :: true :: rest) 4 = .ok 4 := by
  simp [findZero]

theorem findTheFirstZerobit_at (bs : BitStream) (pre l : List Bool) (k : Nat)
    (hb : bs.bits = pre ++ l) (hp : bs.bitPos = pre.length)
    (hf : findZero l 4 = .ok k) :
    bs.findTheFirstZerobit 4 =
      .ok (k, { bs with bitPos := pre.length + min (k + 1) 4 }) := by
  unfold BitStream.findTheFirstZerobit
  rw [hb, hp, List.drop_left, hf]

theorem bitLenAux_le (fuel x : Nat) : bitLenAux fuel x ≤ fuel := by
  induction fuel generalizing x with
  | zero => simp [bitLenAux]
  | succ fuel ih =>
    unfold bitLenAux
    split
    · omega
    · have := ih (x / 2)
      omega

theorem lt_two_pow_bitLenAux (fuel x : Nat) (h : x < 2 ^ fuel) :
    x < 2 ^ bitLenAux fuel x := by
  induction fuel generalizing x with
  | zero => simpa [bitLenAux] using h
  | succ fuel ih =>
    unfold bitLenAux
    split
    · simp_all
    · have hp : 2 ^ (fuel + 1) = 2 * 2 ^ fuel := by ring
      have hx2 : x / 2 < 2 ^ fuel := by omega
      have hb := ih (x / 2) hx2
      have hp2 : 2 ^ (bitLenAux fuel (x / 2) + 1) = 2 * 2 ^ bitLenAux fuel (x / 2) := by
        ring
      omega

theorem ctzAux_pow_dvd (fuel x : Nat) (h : 0 < x) : 2 ^ ctzAux fuel x ∣ x := by
  induction fuel generalizing x with
  | zero => simp [ctzAux]
  | succ fuel ih =>
    unfold ctzAux
    split
    · simp
    · have h2 : 0 < x / 2 := by omega
      obtain ⟨y, hy⟩ := ih (x / 2) h2
      refine ⟨y, ?_⟩
      have hr : 2 ^ (ctzAux fuel (x / 2) + 1) * y = 2 * (2 ^ ctzAux fuel (x / 2) * y) := by
        ring
      rw [hr, ← hy]
      omega

theorem ctz64_eq (x : Nat) (hx : x ≠ 0) : ctz64 x = ctzAux 64 x := by
  unfold ctz64
  rw [if_neg hx]

theorem clz64_add_ctz64_le (x : Nat) (hx : x ≠ 0) (h64 : x < 2 ^ 64) :
    clz64 x + ctz64 x ≤ 63 := by
  have hb := lt_two_pow_bitLenAux 64 x h64
  have hL64 : bitLenAux 64 x ≤ 64 := bitLenAux_le 64 x
  have hL1 : 1 ≤ bitLenAux 64 x := by
    rcases Nat.eq_zero_or_pos (bitLenAux 64 x) with h | h
    · rw [h] at hb
      simp at hb
      omega
    · omega
  have hd := ctzAux_pow_dvd 64 x (by omega)
  have hle : 2 ^ ctzAux 64 x ≤ x := Nat.le_of_dvd (by omega) hd
  have hctz_lt : ctzAux 64 x < bitLenAux 64 x := by
    by_contra hcon
    have : 2 ^ bitLenAux 64 x ≤ 2 ^ ctzAux 64 x :=
      Nat.pow_le_pow_right (by norm_num) (by omega)
    omega
  rw [ctz64_eq x hx]
  unfold clz64
  omega

theorem lt_two_pow_clz64 (x : Nat) (h64 : x < 2 ^ 64) :
    x < 2 ^ (64 - clz64 x) := by
  have hb := lt_two_pow_bitLenAux 64 x h64
  have hL64 : bitLenAux 64 x ≤ 64 := bitLenAux_le 64 x
  have he : 64 - clz64 x = bitLenAux 64 x := by
    unfold clz64
    omega
  rw [he]
  exact hb

theorem clampLeading_le_clz (x : Nat) : clampLeading x ≤ clz64 x := by
  unfold clampLeading
  split <;> omega

theorem clampLeading_le_31 (x : Nat) : clampLeading x ≤ 31 := by
  unfold clampLeading
  split <;> omega

theorem clampLeading_add_ctz_le (x : Nat) (hx : x ≠ 0) (h64 : x < 2 ^ 64) :
    clampLeading x + ctz64 x ≤ 63 := by
  have h1 := clz64_add_ctz64_le x hx h64
  have h2 := clampLeading_le_clz x
  omega

theorem blockSizeOf_eq (x : Nat) (hx : x ≠ 0) (h64 : x < 2 ^ 64) :
    blockSizeOf x = 64 - clampLeading x - ctz64 x := by
  have h1 := clampLeading_add_ctz_le x hx h64
  unfold blockSizeOf
  have hinner : sub64 64 (clampLeading x) = 64 - clampLeading x :=
    sub64_small (by omega) (by norm_num)
  rw [hinner, sub64_small (by omega) (by omega)]

theorem appendTimestamp_first (s : Series) (t : Nat) (h : s.bs.bits = []) :
    s.appendTimestamp t = { s with
      bs := { s.bs with bits := s.bs.bits ++ natToBits t 32 }
      prevTimeWrite := t % 2 ^ 64
      prevTimeDeltaWrite := 60 } := by
  unfold Series.appendTimestamp
  rw [if_pos (by simp [h])]
  rfl

theorem appendTimestamp_ddzero (s : Series) (t : Nat) (h : s.bs.bits ≠ [])
    (hdd : ddOf s t = 0) :
    s.appendTimestamp t = { s with
      prevTimeWrite := t % 2 ^ 64
      bs := { s.bs with bits := s.bs.bits ++ [false] } } := by
  unfold Series.appendTimestamp
  rw [if_neg (by simp [h])]
  simp only [ddOf, deltaOf] at hdd
  rw [if_pos hdd]
  rfl

theorem appendTimestamp_b0 (s : Series) (t : Nat) (h : s.bs.bits ≠ [])
    (hdd : ddOf s t ≠ 0) (h0 : (adjOf s t).natAbs < 2 ^ 6) :
    s.appendTimestamp t = { s with
      bs := { s.bs with bits := s.bs.bits ++
        (natToBits 2 2 ++ natToBits (u64ofInt (adjOf s t + 2 ^ 6)) 7) }
      prevTimeWrite := t % 2 ^ 64
      prevTimeDeltaWrite := deltaOf s t } := by
  unfold Series.appendTimestamp
  rw [if_neg (by simp [h])]
  simp only [ddOf, deltaOf, adjOf] at hdd h0 ⊢
  rw [if_neg hdd, if_pos h0]
  simp [BitStream.addValueToBitStream, List.append_assoc]

theorem appendTimestamp_b1 (s : Series) (t : Nat) (h : s.bs.bits ≠ [])
    (hdd : ddOf s t ≠ 0) (h0 : ¬ (adjOf s t).natAbs < 2 ^ 6)
    (h1 : (adjOf s t).natAbs < 2 ^ 8) :
    s.appendTimestamp t = { s with
      bs := { s.bs with bits := s.bs.bits ++
        (natToBits 6 3 ++ natToBits (u64ofInt (adjOf s t + 2 ^ 8)) 9) }
      prevTimeWrite := t % 2 ^ 64
      prevTimeDeltaWrite := deltaOf s t } := by
  unfold Series.appendTimestamp
  rw [if_neg (by simp [h])]
  simp only [ddOf, deltaOf, adjOf] at hdd h0 h1 ⊢
  rw [if_neg hdd, if_neg h0, if_pos h1]
  simp [BitStream.addValueToBitStream, List.append_assoc]

theorem appendTimestamp_b2 (s : Series) (t : Nat) (h : s.bs.bits ≠ [])
    (hdd : ddOf s t ≠ 0) (h1 : ¬ (adjOf s t).natAbs < 2 ^ 8)
    (h2 : (adjOf s t).natAbs < 2 ^ 11) :
    s.appendTimestamp t = { s with
      bs := { s.bs with bits := s.bs.bits ++
        (natToBits 14 4 ++ natToBits (u64ofInt (adjOf s t + 2 ^ 11)) 12) }
      prevTimeWrite := t % 2 ^ 64
      prevTimeDeltaWrite := deltaOf s t } := by
  have h0 : ¬ (adjOf s t).natAbs < 2 ^ 6 := by
    simp only [adjOf, ddOf, deltaOf] at *
    omega
  unfold Series.appendTimestamp
  rw [if_neg (by simp [h])]
  simp only [ddOf, deltaOf, adjOf] at hdd h0 h1 h2 ⊢
  rw [if_neg hdd, if_neg h0, if_neg h1, if_pos h2]
  simp [BitStream.addValueToBitStream, List.append_assoc]

theorem appendTimestamp_b3 (s : Series) (t : Nat) (h : s.bs.bits ≠ [])
    (hdd : ddOf s t ≠ 0) (h2 : ¬ (adjOf s t).natAbs < 2 ^ 11)
    (h3 : (adjOf s t).natAbs < 2 ^ 31) :
    s.appendTimestamp t = { s with
      bs := { s.bs with bits := s.bs.bits ++
        (natToBits 15 4 ++ natToBits (u64ofInt (adjOf s t + 2 ^ 31)) 32) }
      prevTimeWrite := t % 2 ^ 64
      prevTimeDeltaWrite := deltaOf s t } := by
  have h0 : ¬ (adjOf s t).natAbs < 2 ^ 6 := by
    simp only [adjOf, ddOf, deltaOf] at *
    omega
  have h1 : ¬ (adjOf s t).natAbs < 2 ^ 8 := by
    simp only [adjOf, ddOf, deltaOf] at *
    omega
  unfold Series.appendTimestamp
  rw [if_neg (by simp [h])]
  simp only [ddOf, deltaOf, adjOf] at hdd h0 h1 h2 h3 ⊢
  rw [if_neg hdd, if_neg h0, if_neg h1, if_neg h2, if_pos h3]
  simp [BitStream.addValueToBitStream, List.append_assoc]

theorem appendValue_zero (s : Series) (v : Nat)
    (h : Nat.xor v s.prevValueWrite = 0) :
    s.appendValue v = { s with
      bs := { s.bs with bits := s.bs.bits ++ [false] } } := by
  unfold Series.appendValue
  rw [if_pos h]
  rfl

theorem appendValue_reuse (s : Series) (v : Nat)
    (hx : Nat.xor v s.prevValueWrite ≠ 0)
    (hc : s.prevLeadingWrite ≤ clampLeading (Nat.xor v s.prevValueWrite) ∧
      s.prevTrailingWrite ≤ ctz64 (Nat.xor v s.prevValueWrite) ∧
      sub64 (sub64 64 s.prevLeadingWrite) s.prevTrailingWrite <
        5 + 6 + blockSizeOf (Nat.xor v s.prevValueWrite)) :
    ∀ pay W : Nat,
      pay = Nat.xor v s.prevValueWrite >>> s.prevTrailingWrite →
      W = sub64 (sub64 64 s.prevLeadingWrite) s.prevTrailingWrite →
      s.appendValue v = { s with
        bs := { s.bs with bits := s.bs.bits ++ true :: true :: natToBits pay W }
        prevValueWrite := v } := by
  intro pay W hpay hW
  subst hpay hW
  unfold Series.appendValue
  rw [if_neg hx]
  simp only [clampLeading, blockSizeOf] at hc
  rw [if_pos hc]
  simp [BitStream.addValueToBitStream, List.append_assoc, natToBits]

theorem appendValue_fresh (s : Series) (v : Nat)
    (hx : Nat.xor v s.prevValueWrite ≠ 0)
    (hc : ¬ (s.prevLeadingWrite ≤ clampLeading (Nat.xor v s.prevValueWrite) ∧
      s.prevTrailingWrite ≤ ctz64 (Nat.xor v s.prevValueWrite) ∧
      sub64 (sub64 64 s.prevLeadingWrite) s.prevTrailingWrite <
        5 + 6 + blockSizeOf (Nat.xor v s.prevValueWrite))) :
    ∀ frame : List Bool,
      frame = true :: false ::
        (natToBits (clampLeading (Nat.xor v s.prevValueWrite)) 5 ++
          natToBits (blockSizeOf (Nat.xor v s.prevValueWrite) - 1) 6 ++
          natToBits (Nat.xor v s.prevValueWrite >>> ctz64 (Nat.xor v s.prevValueWrite))
            (blockSizeOf (Nat.xor v s.prevValueWrite))) →
      s.appendValue v = { s with
        bs := { s.bs with bits := s.bs.bits ++ frame }
        prevValueWrite := v
        prevLeadingWrite := clampLeading (Nat.xor v s.prevValueWrite)
        prevTrailingWrite := ctz64 (Nat.xor v s.prevValueWrite) } := by
  intro frame hfr
  subst hfr
  unfold Series.appendValue
  rw [if_neg hx]
  simp only [clampLeading, blockSizeOf] at hc
  rw [if_neg hc]
  simp [BitStream.addValueToBitStream, List.append_assoc, natToBits, clampLeading, blockSizeOf]

theorem readNextTimestamp_first_at (s : Series) (t : Nat) (rest : List Bool)
    (hb : s.bs.bits = natToBits t 32 ++ rest) (hp : s.bs.bitPos = 0) :
    s.readNextTimestamp = (.ok (t % 2 ^ 32),
      { s with bs := { s.bs with bitPos := 32 }
               prevTimeRead := t % 2 ^ 32
               prevTimeDeltaRead := 60 }) := by
  have hr : s.bs.readValueFromBitStream 32 = .ok (t % 2 ^ 32, { s.bs with bitPos := 32 }) := by
    have h2 := readValueFromBitStream_at s.bs [] rest t 32 (by simpa using hb) (by simpa using hp)
    simpa using h2
  unfold Series.readNextTimestamp
  rw [if_pos hp]
  simp only [hr]

theorem readNextTimestamp_ddzero_at (s : Series) (pre rest : List Bool)
    (hb : s.bs.bits = pre ++ false :: rest) (hp : s.bs.bitPos = pre.length)
    (hpre : pre ≠ []) :
    s.readNextTimestamp =
      (.ok ((s.prevTimeRead + u64ofInt s.prevTimeDeltaRead) % 2 ^ 64),
      { s with bs := { s.bs with bitPos := pre.length + 1 }
               prevTimeRead := (s.prevTimeRead + u64ofInt s.prevTimeDeltaRead) % 2 ^ 64 }) := by
  have hffz := findTheFirstZerobit_at s.bs pre (false :: rest) 0 hb hp (findZero_bit0 rest)
  have hc0 : ¬ s.bs.bitPos = 0 := by
    rw [hp]
    simpa using hpre
  unfold Series.readNextTimestamp
  rw [if_neg hc0, hffz]
  norm_num

theorem readNextTimestamp_frame_at (s : Series) (pre ctrl rest : List Bool)
    (dv w k : Nat) (v2 d2 : Int) (t2 : Nat)
    (hb : s.bs.bits = pre ++ ctrl ++ natToBits dv w ++ rest)
    (hp : s.bs.bitPos = pre.length) (hpre : pre ≠ [])
    (hfz : findZero (ctrl ++ (natToBits dv w ++ rest)) 4 = .ok k)
    (hk : ¬ k = 0) (hck : min (k + 1) 4 = ctrl.length)
    (hw : tsPayloadWidth (k - 1) = w)
    (hv2 : v2 = (if 0 ≤ wrap64 (wrap64 ((dv % 2 ^ w : Nat) : Int) - 2 ^ (w - 1)) then
        wrap64 (wrap64 (wrap64 ((dv % 2 ^ w : Nat) : Int) - 2 ^ (w - 1)) + 1)
      else wrap64 (wrap64 ((dv % 2 ^ w : Nat) : Int) - 2 ^ (w - 1))))
    (hd2 : d2 = wrap64 (s.prevTimeDeltaRead + v2))
    (ht2 : t2 = (s.prevTimeRead + u64ofInt d2) % 2 ^ 64) :
    s.readNextTimestamp = (.ok t2,
      { s with bs := { s.bs with bitPos := pre.length + ctrl.length + w }
               prevTimeDeltaRead := d2
               prevTimeRead := t2 }) := by
  have hb2 : s.bs.bits = pre ++ (ctrl ++ (natToBits dv w ++ rest)) := by
    rw [hb]
    simp [List.append_assoc]
  have hffz := findTheFirstZerobit_at s.bs pre (ctrl ++ (natToBits dv w ++ rest)) k hb2 hp hfz
  rw [hck] at hffz
  have hc0 : ¬ s.bs.bitPos = 0 := by
    rw [hp]
    simpa using hpre
  have hread : ({ s.bs with bitPos := pre.length + ctrl.length }).readValueFromBitStream w =
      .ok (dv % 2 ^ w, { s.bs with bitPos := pre.length + ctrl.length + w }) := by
    have h3 := readValueFromBitStream_at { s.bs with bitPos := pre.length + ctrl.length }
      (pre ++ ctrl) rest dv w
      (by simp only [hb2]; simp [List.append_assoc])
      (by simp [List.length_append])
    simpa [List.length_append, Nat.add_assoc] using h3
  unfold Series.readNextTimestamp
  rw [if_neg hc0, hffz]
  simp only [hk, if_false, if_neg hk, hw, hread]
  rw [hv2] at hd2
  rw [hd2] at ht2
  simp [ht2, hd2]

theorem natToBits_zero_one : natToBits 0 1 = [false] := by decide

theorem natToBits_one_one : natToBits 1 1 = [true] := by decide

theorem readValue_lit (bits pre rest : List Bool) (v w p q r : Nat)
    (hb : bits = pre ++ natToBits v w ++ rest) (hp : p = pre.length)
    (hq : q = pre.length + w) (hr : r = v % 2 ^ w) :
    BitStream.readValueFromBitStream ⟨bits, p⟩ w = .ok (r, ⟨bits, q⟩) := by
  subst hb hp hq hr
  exact readValueFromBitStream_at ⟨pre ++ natToBits v w ++ rest, pre.length⟩ pre rest v w rfl rfl

theorem readNextValue_zero_at (s : Series) (pre rest : List Bool)
    (hb : s.bs.bits = pre ++ false :: rest) (hp : s.bs.bitPos = pre.length) :
    s.readNextValue = (.ok s.prevValueRead,
      { s with bs := { s.bs with bitPos := pre.length + 1 } }) := by
  obtain ⟨⟨bits, pos⟩, ptw, pdw, ptr, pdr, pvw, plw, ptlw, pvr, plr, ptlr⟩ := s
  dsimp only at hb hp ⊢
  subst hb
  subst hp
  have h1 := readValue_lit (pre ++ false :: rest) pre rest 0 1 pre.length (pre.length + 1) 0
    (by simp [natToBits_zero_one]) rfl rfl (by norm_num)
  unfold Series.readNextValue
  simp only [h1]
  norm_num

theorem readNextValue_reuse_at (s : Series) (pre rest : List Bool) (pv W rv : Nat)
    (hW : W = sub64 (sub64 64 s.prevLeadingRead) s.prevTrailingRead)
    (hb : s.bs.bits = pre ++ true :: true :: (natToBits pv W ++ rest))
    (hp : s.bs.bitPos = pre.length)
    (hrv : rv = Nat.xor ((pv % 2 ^ W) <<< s.prevTrailingRead % 2 ^ 64) s.prevValueRead) :
    s.readNextValue = (.ok rv,
      { s with bs := { s.bs with bitPos := pre.length + 2 + W }
               prevValueRead := rv }) := by
  obtain ⟨⟨bits, pos⟩, ptw, pdw, ptr, pdr, pvw, plw, ptlw, pvr, plr, ptlr⟩ := s
  dsimp only at hb hp hW hrv ⊢
  subst hW hrv hb hp
  have h1 := readValue_lit
    (pre ++ true :: true :: (natToBits pv (sub64 (sub64 64 plr) ptlr) ++ rest)) pre
    (true :: (natToBits pv (sub64 (sub64 64 plr) ptlr) ++ rest)) 1 1
    pre.length (pre.length + 1) 1
    (by simp [natToBits_one_one]) rfl rfl (by norm_num)
  have h2 := readValue_lit
    (pre ++ true :: true :: (natToBits pv (sub64 (sub64 64 plr) ptlr) ++ rest)) (pre ++ [true])
    (natToBits pv (sub64 (sub64 64 plr) ptlr) ++ rest) 1 1
    (pre.length + 1) (pre.length + 2) 1
    (by simp [natToBits_one_one]) (by simp) (by simp) (by norm_num)
  have h3 := readValue_lit
    (pre ++ true :: true :: (natToBits pv (sub64 (sub64 64 plr) ptlr) ++ rest)) (pre ++ [true, true])
    rest pv (sub64 (sub64 64 plr) ptlr) (pre.length + 2)
    (pre.length + 2 + sub64 (sub64 64 plr) ptlr) (pv % 2 ^ sub64 (sub64 64 plr) ptlr)
    (by simp) (by simp) (by simp) rfl
  unfold Series.readNextValue
  simp only [h1, h2, h3]
  norm_num

theorem readNextValue_fresh_at (s : Series) (pre rest : List Bool)
    (ldg bsz0 pv tr rv : Nat)
    (hldg : ldg < 32) (hbsz : bsz0 < 64)
    (hb : s.bs.bits = pre ++ true :: false ::
      (natToBits ldg 5 ++ natToBits bsz0 6 ++ natToBits pv (bsz0 + 1) ++ rest))
    (hp : s.bs.bitPos = pre.length)
    (htr : tr = sub64 (sub64 64 ldg) (bsz0 + 1))
    (hrv : rv = Nat.xor ((pv % 2 ^ (bsz0 + 1)) <<< tr % 2 ^ 64) s.prevValueRead) :
    s.readNextValue = (.ok rv,
      { s with bs := { s.bs with bitPos := pre.length + 13 + (bsz0 + 1) }
               prevTrailingRead := tr
               prevLeadingRead := ldg
               prevValueRead := rv }) := by
  obtain ⟨⟨bits, pos⟩, ptw, pdw, ptr, pdr, pvw, plw, ptlw, pvr, plr, ptlr⟩ := s
  dsimp only at hb hp htr hrv ⊢
  subst htr hrv hb hp
  have h1 := readValue_lit
    (pre ++ true :: false :: (natToBits ldg 5 ++ natToBits bsz0 6 ++ natToBits pv (bsz0 + 1) ++ rest))
    pre (false :: (natToBits ldg 5 ++ natToBits bsz0 6 ++ natToBits pv (bsz0 + 1) ++ rest))
    1 1 pre.length (pre.length + 1) 1
    (by simp [natToBits_one_one]) rfl rfl (by norm_num)
  have h2 := readValue_lit
    (pre ++ true :: false :: (natToBits ldg 5 ++ natToBits bsz0 6 ++ natToBits pv (bsz0 + 1) ++ rest))
    (pre ++ [true]) (natToBits ldg 5 ++ natToBits bsz0 6 ++ natToBits pv (bsz0 + 1) ++ rest)
    0 1 (pre.length + 1) (pre.length + 2) 0
    (by simp [natToBits_zero_one]) (by simp) (by simp) (by norm_num)
  have h3 := readValue_lit
    (pre ++ true :: false :: (natToBits ldg 5 ++ natToBits bsz0 6 ++ natToBits pv (bsz0 + 1) ++ rest))
    (pre ++ [true, false]) (natToBits bsz0 6 ++ natToBits pv (bsz0 + 1) ++ rest)
    ldg 5 (pre.length + 2) (pre.length + 7) ldg
    (by simp [List.append_assoc]) (by simp) (by simp) (by omega)
  have h4 := readValue_lit
    (pre ++ true :: false :: (natToBits ldg 5 ++ natToBits bsz0 6 ++ natToBits pv (bsz0 + 1) ++ rest))
    (pre ++ true :: false :: natToBits ldg 5) (natToBits pv (bsz0 + 1) ++ rest)
    bsz0 6 (pre.length + 7) (pre.length + 13) bsz0
    (by simp [List.append_assoc]) (by simp [natToBits_length])
    (by simp [natToBits_length]) (by omega)
  have h5 := readValue_lit
    (pre ++ true :: false :: (natToBits ldg 5 ++ natToBits bsz0 6 ++ natToBits pv (bsz0 + 1) ++ rest))
    (pre ++ true :: false :: (natToBits ldg 5 ++ natToBits bsz0 6)) rest
    pv (bsz0 + 1) (pre.length + 13) (pre.length + 13 + (bsz0 + 1)) (pv % 2 ^ (bsz0 + 1))
    (by simp [List.append_assoc]) (by simp [natToBits_length])
    (by simp [natToBits_length]) rfl
  unfold Series.readNextValue
  simp only [h1, h2, h3, h4, h5]
  norm_num

theorem readNextValue_roundtrip (wr : Series) (v : Nat) (r : Series)
    (hb : r.bs.bits = (wr.appendValue v).bs.bits)
    (hp : r.bs.bitPos = wr.bs.bits.length)
    (hL : r.prevLeadingRead = wr.prevLeadingWrite)
    (hT : r.prevTrailingRead = wr.prevTrailingWrite)
    (_hLT : wr.prevLeadingWrite + wr.prevTrailingWrite ≤ 63)
    (hv : v < 2 ^ 64) (hpv : wr.prevValueWrite < 2 ^ 64) :
    ∃ rv r2, r.readNextValue = (.ok rv, r2) ∧
      r2.bs.bits = r.bs.bits ∧
      r2.bs.bitPos = (wr.appendValue v).bs.bits.length ∧
      r2.prevLeadingRead = (wr.appendValue v).prevLeadingWrite ∧
      r2.prevTrailingRead = (wr.appendValue v).prevTrailingWrite ∧
      r2.prevTimeRead = r.prevTimeRead ∧
      r2.prevTimeDeltaRead = r.prevTimeDeltaRead := by
  by_cases hx : Nat.xor v wr.prevValueWrite = 0
  · have ha := appendValue_zero wr v hx
    rw [ha] at hb ⊢
    dsimp only at hb ⊢
    exact ⟨r.prevValueRead, _,
      readNextValue_zero_at r wr.bs.bits [] (by simpa using hb) hp,
      rfl, by simp, by simp [hL], by simp [hT], rfl, rfl⟩
  · by_cases hc : wr.prevLeadingWrite ≤ clampLeading (Nat.xor v wr.prevValueWrite) ∧
      wr.prevTrailingWrite ≤ ctz64 (Nat.xor v wr.prevValueWrite) ∧
      sub64 (sub64 64 wr.prevLeadingWrite) wr.prevTrailingWrite <
        5 + 6 + blockSizeOf (Nat.xor v wr.prevValueWrite)
    · have ha := appendValue_reuse wr v hx hc _ _ rfl rfl
      rw [ha] at hb ⊢
      dsimp only at hb ⊢
      exact ⟨_, _,
        readNextValue_reuse_at r wr.bs.bits []
          (Nat.xor v wr.prevValueWrite >>> wr.prevTrailingWrite)
          (sub64 (sub64 64 wr.prevLeadingWrite) wr.prevTrailingWrite) _
          (by rw [hL, hT]) (by rw [hb]; simp) hp (by rw [hT]),
        rfl, by simp [natToBits_length]; omega, by simp [hL], by simp [hT], rfl, rfl⟩
    · have hx64 : Nat.xor v wr.prevValueWrite < 2 ^ 64 := Nat.xor_lt_two_pow hv hpv
      have hbseq := blockSizeOf_eq (Nat.xor v wr.prevValueWrite) hx hx64
      have hsum := clampLeading_add_ctz_le (Nat.xor v wr.prevValueWrite) hx hx64
      have hcl := clampLeading_le_31 (Nat.xor v wr.prevValueWrite)
      have hbs1 : 1 ≤ blockSizeOf (Nat.xor v wr.prevValueWrite) := by omega
      have ha := appendValue_fresh wr v hx hc _ rfl
      rw [ha] at hb ⊢
      dsimp only at hb ⊢
      have htr : ctz64 (Nat.xor v wr.prevValueWrite) =
          sub64 (sub64 64 (clampLeading (Nat.xor v wr.prevValueWrite)))
            (blockSizeOf (Nat.xor v wr.prevValueWrite) - 1 + 1) := by
        rw [Nat.sub_add_cancel hbs1]
        have hi : sub64 64 (clampLeading (Nat.xor v wr.prevValueWrite)) =
            64 - clampLeading (Nat.xor v wr.prevValueWrite) :=
          sub64_small (by omega) (by norm_num)
        rw [hi, sub64_small (by omega) (by omega)]
        omega
      exact ⟨_, _,
        readNextValue_fresh_at r wr.bs.bits []
          (clampLeading (Nat.xor v wr.prevValueWrite))
          (blockSizeOf (Nat.xor v wr.prevValueWrite) - 1)
          (Nat.xor v wr.prevValueWrite >>> ctz64 (Nat.xor v wr.prevValueWrite))
          (ctz64 (Nat.xor v wr.prevValueWrite)) _
          (by omega) (by omega)
          (by rw [hb, Nat.sub_add_cancel hbs1]; simp)
          hp htr rfl,
        rfl, by simp [natToBits_length]; omega, by simp, by simp, rfl, rfl⟩

theorem appendValue_fields (s : Series) (v : Nat) :
    ∃ vf, (s.appendValue v).bs.bits = s.bs.bits ++ vf ∧
      (s.appendValue v).bs.bitPos = s.bs.bitPos ∧
      (s.appendValue v).prevTimeWrite = s.prevTimeWrite ∧
      (s.appendValue v).prevTimeDeltaWrite = s.prevTimeDeltaWrite ∧
      (s.appendValue v).prevTimeRead = s.prevTimeRead ∧
      (s.appendValue v).prevTimeDeltaRead = s.prevTimeDeltaRead ∧
      (s.appendValue v).prevValueRead = s.prevValueRead ∧
      (s.appendValue v).prevLeadingRead = s.prevLeadingRead ∧
      (s.appendValue v).prevTrailingRead = s.prevTrailingRead := by
  by_cases hx : Nat.xor v s.prevValueWrite = 0
  · rw [appendValue_zero s v hx]
    exact ⟨[false], rfl, rfl, rfl, rfl, rfl, rfl, rfl, rfl, rfl⟩
  · by_cases hc : s.prevLeadingWrite ≤ clampLeading (Nat.xor v s.prevValueWrite) ∧
      s.prevTrailingWrite ≤ ctz64 (Nat.xor v s.prevValueWrite) ∧
      sub64 (sub64 64 s.prevLeadingWrite) s.prevTrailingWrite <
        5 + 6 + blockSizeOf (Nat.xor v s.prevValueWrite)
    · rw [appendValue_reuse s v hx hc _ _ rfl rfl]
      exact ⟨_, rfl, rfl, rfl, rfl, rfl, rfl, rfl, rfl, rfl⟩
    · rw [appendValue_fresh s v hx hc _ rfl]
      exact ⟨_, rfl, rfl, rfl, rfl, rfl, rfl, rfl, rfl, rfl⟩

/-- C6: when a non-first timestamp with delta-of-delta zero is
appended, the encoder writes exactly one 0 bit and updates only
prev_time_w: the result is the same Series with one false bit appended
and the new timestamp stored, so prev_delta_w, the whole value-codec
writer state, the reader state and the read cursor are untouched. -/
theorem c6_ddzero_writes_one_zero_bit (s : Series) (t : Nat)
    (h : s.bs.bits ≠ [])
    (hdd : wrap64 (wrap64 ((t : Int) - (s.prevTimeWrite : Int)) - s.prevTimeDeltaWrite) = 0) :
    s.appendTimestamp t = { s with
      prevTimeWrite := t % 2 ^ 64
      bs := { s.bs with bits := s.bs.bits ++ [false] } } :=
  appendTimestamp_ddzero s t h hdd

/-- C6 witness: appending timestamp 160 after (100, 761.0), with the
default delta 60, writes exactly one zero bit. -/
theorem c6_witness :
    (emptySeries.Append 100 val761).appendTimestamp 160 =
      { emptySeries.Append 100 val761 with
        prevTimeWrite := 160 % 2 ^ 64
        bs := { (emptySeries.Append 100 val761).bs with
                bits := (emptySeries.Append 100 val761).bs.bits ++ [false] } } :=
  c6_ddzero_writes_one_zero_bit (emptySeries.Append 100 val761) 160 (by decide) (by decide)

/-- C9: on a fresh Series the first appended timestamp occupies exactly
the first 32 bits of the stream, the writer is left with
prev_delta_w = 60, and the first timestamp decode consumes exactly
those 32 bits, returns the timestamp, and installs prev_delta_r = 60. -/
theorem c9_first_sample_absolute (t v : Nat) (ht : t < 2 ^ 32) :
    (emptySeries.Append t v).bs.bits.take 32 = natToBits t 32 ∧
    (emptySeries.Append t v).prevTimeDeltaWrite = 60 ∧
    (emptySeries.Append t v).readNextTimestamp.1 = .ok t ∧
    (emptySeries.Append t v).readNextTimestamp.2.prevTimeDeltaRead = 60 ∧
    (emptySeries.Append t v).readNextTimestamp.2.bs.bitPos = 32 := by
  have h1 := appendTimestamp_first emptySeries t rfl
  obtain ⟨vf, hbits, hpos, _, hdw, _, _, _, _, _⟩ :=
    appendValue_fields (emptySeries.appendTimestamp t) v
  have hb : (emptySeries.Append t v).bs.bits = natToBits t 32 ++ vf := by
    show ((emptySeries.appendTimestamp t).appendValue v).bs.bits = _
    rw [hbits, h1]
    rfl
  have hp : (emptySeries.Append t v).bs.bitPos = 0 := by
    show ((emptySeries.appendTimestamp t).appendValue v).bs.bitPos = 0
    rw [hpos, h1]
    rfl
  have hr := readNextTimestamp_first_at (emptySeries.Append t v) t vf hb hp
  have hmod : t % 2 ^ 32 = t := Nat.mod_eq_of_lt ht
  refine ⟨?_, ?_, ?_, ?_, ?_⟩
  · rw [hb, List.take_left' (natToBits_length t 32)]
  · show ((emptySeries.appendTimestamp t).appendValue v).prevTimeDeltaWrite = 60
    rw [hdw, h1]
  · rw [hr, hmod]
  · rw [hr]
  · rw [hr]

/-- C9 witness: the first sample (1440583200, 761.0) on a fresh series. -/
theorem c9_witness :
    (emptySeries.Append 1440583200 val761).bs.bits.take 32 = natToBits 1440583200 32 ∧
    (emptySeries.Append 1440583200 val761).prevTimeDeltaWrite = 60 ∧
    (emptySeries.Append 1440583200 val761).readNextTimestamp.1 = .ok 1440583200 ∧
    (emptySeries.Append 1440583200 val761).readNextTimestamp.2.prevTimeDeltaRead = 60 ∧
    (emptySeries.Append 1440583200 val761).readNextTimestamp.2.bs.bitPos = 32 :=
  c9_first_sample_absolute 1440583200 val761 (by norm_num)

theorem appendValue_len (s : Series) (v : Nat) :
    (s.appendValue v).bs.bits.length = s.bs.bits.length +
      valueFrameLenOf v s.prevValueWrite s.prevLeadingWrite s.prevTrailingWrite := by
  unfold valueFrameLenOf
  by_cases hx : Nat.xor v s.prevValueWrite = 0
  · rw [appendValue_zero s v hx, if_pos hx]
    simp
  · rw [if_neg hx]
    by_cases hc : s.prevLeadingWrite ≤ clampLeading (Nat.xor v s.prevValueWrite) ∧
        s.prevTrailingWrite ≤ ctz64 (Nat.xor v s.prevValueWrite) ∧
        sub64 (sub64 64 s.prevLeadingWrite) s.prevTrailingWrite <
          5 + 6 + blockSizeOf (Nat.xor v s.prevValueWrite)
    · rw [appendValue_reuse s v hx hc _ _ rfl rfl, if_pos hc]
      simp [natToBits_length]
      omega
    · rw [appendValue_fresh s v hx hc _ rfl, if_neg hc]
      simp [natToBits_length]
      omega

theorem firstValueFrameLen_eq (c : Nat) :
    firstValueFrameLen c = valueFrameLenOf c 0 0 0 := by
  unfold firstValueFrameLen
  rw [appendValue_len]
  simp [emptySeries]

theorem appendSeq_const_inv (t0 c N : Nat) (hN : 1 ≤ N) (ht : t0 + 60 * N < 2 ^ 64) :
    (appendSeq emptySeries (constStream t0 c N)).bs.bits.length =
        32 + firstValueFrameLen c + (N - 1) * 2 ∧
      (appendSeq emptySeries (constStream t0 c N)).prevTimeWrite = t0 + 60 * (N - 1) ∧
      (appendSeq emptySeries (constStream t0 c N)).prevTimeDeltaWrite = 60 ∧
      (appendSeq emptySeries (constStream t0 c N)).prevValueWrite = c := by
  induction N with
  | zero => omega
  | succ N ih =>
    rcases Nat.eq_zero_or_pos N with hN0 | hN1
    · subst hN0
      have hcs : constStream t0 c 1 = [(t0, c)] := by
        simp [constStream, List.range_succ]
      rw [hcs]
      have hfirst := appendTimestamp_first emptySeries t0 rfl
      have hone : appendSeq emptySeries [(t0, c)] =
          (emptySeries.appendTimestamp t0).appendValue c := rfl
      have hlen := appendValue_len (emptySeries.appendTimestamp t0) c
      obtain ⟨vf, hbits, hpos, hptw, hdw, _, _, _, _, _⟩ :=
        appendValue_fields (emptySeries.appendTimestamp t0) c
      have ht0 : t0 % 2 ^ 64 = t0 := Nat.mod_eq_of_lt (by omega)
      refine ⟨?_, ?_, ?_, ?_⟩
      · rw [hone, hlen, hfirst]
        dsimp only
        simp [emptySeries, natToBits_length, ← firstValueFrameLen_eq]
      · rw [hone, hptw, hfirst]
        simpa using ht0
      · rw [hone, hdw, hfirst]
      · show ((emptySeries.appendTimestamp t0).appendValue c).prevValueWrite = c
        by_cases hx : Nat.xor c (emptySeries.appendTimestamp t0).prevValueWrite = 0
        · have hz : (emptySeries.appendTimestamp t0).prevValueWrite = 0 := by
            rw [hfirst]
            rfl
          rw [appendValue_zero _ c hx]
          rw [hz] at hx
          have hx2 : c ^^^ 0 = 0 := hx
          simp at hx2
          show (emptySeries.appendTimestamp t0).prevValueWrite = c
          rw [hz, hx2]
        · by_cases hc2 : (emptySeries.appendTimestamp t0).prevLeadingWrite ≤
              clampLeading (Nat.xor c (emptySeries.appendTimestamp t0).prevValueWrite) ∧
            (emptySeries.appendTimestamp t0).prevTrailingWrite ≤
              ctz64 (Nat.xor c (emptySeries.appendTimestamp t0).prevValueWrite) ∧
            sub64 (sub64 64 (emptySeries.appendTimestamp t0).prevLeadingWrite)
                (emptySeries.appendTimestamp t0).prevTrailingWrite <
              5 + 6 + blockSizeOf (Nat.xor c (emptySeries.appendTimestamp t0).prevValueWrite)
          · rw [appendValue_reuse _ c hx hc2 _ _ rfl rfl]
          · rw [appendValue_fresh _ c hx hc2 _ rfl]
    · have hnext : constStream t0 c (N + 1) = constStream t0 c N ++ [(t0 + 60 * N, c)] := by
        simp [constStream, List.range_succ]
      have hsplit : appendSeq emptySeries (constStream t0 c (N + 1)) =
          (appendSeq emptySeries (constStream t0 c N)).Append (t0 + 60 * N) c := by
        rw [hnext]
        unfold appendSeq
        rw [List.foldl_append]
        rfl
      obtain ⟨ihlen, ihptw, ihdw, ihpvw⟩ := ih hN1 (by omega)
      have hne : (appendSeq emptySeries (constStream t0 c N)).bs.bits ≠ [] := by
        intro hcon
        rw [hcon] at ihlen
        simp at ihlen
        omega
      have hdd : wrap64 (wrap64 (((t0 + 60 * N : Nat) : Int) -
          ((appendSeq emptySeries (constStream t0 c N)).prevTimeWrite : Int)) -
          (appendSeq emptySeries (constStream t0 c N)).prevTimeDeltaWrite) = 0 := by
        rw [ihptw, ihdw]
        have h60 : ((t0 + 60 * N : Nat) : Int) - ((t0 + 60 * (N - 1) : Nat) : Int) = 60 := by
          push_cast
          omega
        rw [h60]
        simp only [wrap64]
        norm_num
      have hts := appendTimestamp_ddzero (appendSeq emptySeries (constStream t0 c N))
        (t0 + 60 * N) hne hdd
      have hxz : Nat.xor c ((appendSeq emptySeries (constStream t0 c N)).appendTimestamp
          (t0 + 60 * N)).prevValueWrite = 0 := by
        rw [hts]
        show Nat.xor c (appendSeq emptySeries (constStream t0 c N)).prevValueWrite = 0
        rw [ihpvw]
        show c ^^^ c = 0
        simp
      have hv := appendValue_zero _ c hxz
      have hmod : (t0 + 60 * N) % 2 ^ 64 = t0 + 60 * N := Nat.mod_eq_of_lt (by omega)
      refine ⟨?_, ?_, ?_, ?_⟩
      · rw [hsplit]
        unfold Series.Append
        rw [hv, hts]
        simp only [List.length_append]
        simp [ihlen]
        omega
      · rw [hsplit]
        unfold Series.Append
        rw [hv, hts]
        simpa using hmod
      · rw [hsplit]
        unfold Series.Append
        rw [hv, hts]
        exact ihdw
      · rw [hsplit]
        unfold Series.Append
        rw [hv, hts]
        exact ihpvw

/-- C7: for the constant minute-cadence stream of N samples
(t0 + 60 i, c), the total encoded size after all appends is exactly
32 + first_value_frame(c) + (N - 1) * 2 bits: each sample after the
first contributes one zero bit for its timestamp and one zero bit for
its value. -/
theorem c7_compression_floor (t0 c N : Nat) (hN : 1 ≤ N)
    (ht : t0 + 60 * N < 2 ^ 64) :
    (appendSeq emptySeries (constStream t0 c N)).bs.bits.length =
      32 + firstValueFrameLen c + (N - 1) * 2 :=
  (appendSeq_const_inv t0 c N hN ht).1

/-- C7 witness: three samples of 761.0 at minute cadence from
timestamp 100 encode into 32 + 33 + 4 bits. -/
theorem c7_witness :
    (appendSeq emptySeries (constStream 100 val761 3)).bs.bits.length =
      32 + firstValueFrameLen val761 + (3 - 1) * 2 :=
  c7_compression_floor 100 val761 3 (by norm_num) (by norm_num)

theorem wrap64_idem (z : Int) : wrap64 (wrap64 z) = wrap64 z :=
  wrap64_eq_self (wrap64_lb z) (wrap64_ub z)

theorem wrap64_add_sub (pdw X : Int) :
    wrap64 (pdw + wrap64 (wrap64 X - pdw)) = wrap64 X := by
  apply wrap64_congr
  have h1 := wrap64_mod X
  have h2 := wrap64_mod (wrap64 X - pdw)
  omega

theorem time_recover (ptw t D : Nat) (_hptw : ptw < 2 ^ 64) (ht : t < 2 ^ 64)
    (hD : (D : Int) = ((t : Int) - (ptw : Int)) % 2 ^ 64) :
    (ptw + D) % 2 ^ 64 = t := by
  norm_num at _hptw ht hD ⊢
  omega

theorem decode_core (dd adj B : Int)
    (hadjdef : adj = if 0 < dd then dd - 1 else dd)
    (hBpos : 0 < B) (hB31 : B ≤ 2 ^ 31)
    (hdd : dd ≠ 0) (hddlb : -(2 ^ 63) ≤ dd) (hddub : dd < 2 ^ 63)
    (hadj : ((adj.natAbs : Nat) : Int) < B) :
    (if 0 ≤ wrap64 (wrap64 (adj + B) - B) then
      wrap64 (wrap64 (wrap64 (adj + B) - B) + 1)
    else wrap64 (wrap64 (adj + B) - B)) = dd := by
  subst hadjdef
  have hB31n : B ≤ 2147483648 := le_trans hB31 (by norm_num)
  rcases lt_trichotomy 0 dd with hp | hz | hn
  · simp only [if_pos hp] at hadj ⊢
    have hna : ((dd - 1).natAbs : Int) = dd - 1 := by omega
    rw [hna] at hadj
    have hw1 : wrap64 (dd - 1 + B) = dd - 1 + B :=
      wrap64_eq_self (by norm_num; omega) (by norm_num; omega)
    rw [hw1]
    have hw2 : wrap64 (dd - 1 + B - B) = dd - 1 := by
      have he : dd - 1 + B - B = dd - 1 := by ring
      rw [he]
      exact wrap64_eq_self (by norm_num; omega) (by norm_num; omega)
    rw [hw2, if_pos (by omega : (0:Int) ≤ dd - 1)]
    have hw3 : wrap64 (dd - 1 + 1) = dd - 1 + 1 :=
      wrap64_eq_self (by norm_num; omega) (by norm_num; omega)
    rw [hw3]
    omega
  · exact absurd hz.symm hdd
  · simp only [if_neg (by omega : ¬ (0:Int) < dd)] at hadj ⊢
    have hna : (dd.natAbs : Int) = -dd := by omega
    rw [hna] at hadj
    have hw1 : wrap64 (dd + B) = dd + B :=
      wrap64_eq_self (by norm_num; omega) (by norm_num; omega)
    rw [hw1]
    have hw2 : wrap64 (dd + B - B) = dd := by
      have he : dd + B - B = dd := by ring
      rw [he]
      exact wrap64_eq_self (by norm_num; omega) (by norm_num; omega)
    rw [hw2, if_neg (by omega : ¬ (0:Int) ≤ dd)]

theorem natToBits_two_two : natToBits 2 2 = [true, false] := by decide

theorem natToBits_six_three : natToBits 6 3 = [true, true, false] := by decide

theorem natToBits_fourteen_four : natToBits 14 4 = [true, true, true, false] := by decide

theorem natToBits_fifteen_four : natToBits 15 4 = [true, true, true, true] := by decide

theorem c4_core (s : Series) (t v : Nat) (ctrl : List Bool) (B : Int) (w k : Nat)
    (hbits : s.bs.bits ≠ [])
    (hpos : s.bs.bitPos = s.bs.bits.length)
    (ht : t < 2 ^ 64) (hv : v < 2 ^ 64)
    (hptw : s.prevTimeWrite < 2 ^ 64)
    (hpvw : s.prevValueWrite < 2 ^ 64)
    (htr : s.prevTimeRead = s.prevTimeWrite)
    (hdr : s.prevTimeDeltaRead = s.prevTimeDeltaWrite)
    (hlr : s.prevLeadingRead = s.prevLeadingWrite)
    (htrr : s.prevTrailingRead = s.prevTrailingWrite)
    (hLT : s.prevLeadingWrite + s.prevTrailingWrite ≤ 63)
    (hdd : ddOf s t ≠ 0)
    (ha : s.appendTimestamp t = { s with
      bs := { s.bs with bits := s.bs.bits ++ (ctrl ++ natToBits (u64ofInt (adjOf s t + B)) w) }
      prevTimeWrite := t % 2 ^ 64
      prevTimeDeltaWrite := deltaOf s t })
    (hfz : ∀ rest, findZero (ctrl ++ rest) 4 = .ok k)
    (hk : ¬ k = 0) (hck : min (k + 1) 4 = ctrl.length)
    (hwk : tsPayloadWidth (k - 1) = w)
    (hw1 : ((2 : Int) ^ (w - 1)) = B)
    (h2w : ((2 ^ w : Nat) : Int) = 2 * B)
    (hBpos : 0 < B) (hB31 : B ≤ 2 ^ 31)
    (hadjB : ((adjOf s t).natAbs : Int) < B) :
    ∃ rv s2, (s.Append t v).Read = (.ok (t, rv), s2) ∧
      s2.prevTimeDeltaRead = deltaOf s t := by
  have hB31n : B ≤ 2147483648 := le_trans hB31 (by norm_num)
  have hddlb : -(2 ^ 63) ≤ ddOf s t := wrap64_lb _
  have hddub : ddOf s t < 2 ^ 63 := wrap64_ub _
  have hadjr : -B < adjOf s t ∧ adjOf s t < B := by
    constructor <;> omega
  have hdvc : ((u64ofInt (adjOf s t + B) : Nat) : Int) = adjOf s t + B := by
    rw [u64ofInt_cast]
    norm_num
    omega
  have hdvlt : u64ofInt (adjOf s t + B) % 2 ^ w = u64ofInt (adjOf s t + B) := by
    apply Nat.mod_eq_of_lt
    omega
  have hv2 : ddOf s t =
      (if 0 ≤ wrap64 (wrap64 ((u64ofInt (adjOf s t + B) % 2 ^ w : Nat) : Int) - 2 ^ (w - 1)) then
        wrap64 (wrap64 (wrap64 ((u64ofInt (adjOf s t + B) % 2 ^ w : Nat) : Int) - 2 ^ (w - 1)) + 1)
      else wrap64 (wrap64 ((u64ofInt (adjOf s t + B) % 2 ^ w : Nat) : Int) - 2 ^ (w - 1))) := by
    rw [hdvlt, hw1, hdvc]
    exact (decode_core (ddOf s t) (adjOf s t) B rfl hBpos hB31 hdd hddlb hddub hadjB).symm
  have hd2 : deltaOf s t = wrap64 (s.prevTimeDeltaRead + ddOf s t) := by
    rw [hdr]
    exact (wrap64_add_sub s.prevTimeDeltaWrite ((t : Int) - (s.prevTimeWrite : Int))).symm
  have hDcast : ((u64ofInt (deltaOf s t) : Nat) : Int) =
      ((t : Int) - (s.prevTimeWrite : Int)) % 2 ^ 64 := by
    rw [u64ofInt_cast]
    exact wrap64_mod _
  have ht2 : t = (s.prevTimeRead + u64ofInt (deltaOf s t)) % 2 ^ 64 := by
    rw [htr]
    exact (time_recover s.prevTimeWrite t _ hptw ht hDcast).symm
  obtain ⟨vf, hvb, hvp, hvptw, hvdw, hvtr2, hvdr2, hvvr, hvlr2, hvtrr2⟩ :=
    appendValue_fields (s.appendTimestamp t) v
  have hfbits : ((s.appendTimestamp t).appendValue v).bs.bits =
      s.bs.bits ++ ctrl ++ natToBits (u64ofInt (adjOf s t + B)) w ++ vf := by
    rw [hvb, ha]
    dsimp only
    simp [List.append_assoc]
  have hfpos : ((s.appendTimestamp t).appendValue v).bs.bitPos = s.bs.bits.length := by
    rw [hvp, ha]
    dsimp only
    exact hpos
  have hts := readNextTimestamp_frame_at ((s.appendTimestamp t).appendValue v)
    s.bs.bits ctrl vf (u64ofInt (adjOf s t + B)) w k (ddOf s t) (deltaOf s t) t
    hfbits hfpos hbits (hfz _) hk hck hwk hv2
    (by rw [hvdr2, ha]
        dsimp only
        exact hd2)
    (by rw [hvtr2, ha]
        dsimp only
        exact ht2)
  have hroundv := readNextValue_roundtrip (s.appendTimestamp t) v
    { (s.appendTimestamp t).appendValue v with
      bs := { ((s.appendTimestamp t).appendValue v).bs with
              bitPos := s.bs.bits.length + ctrl.length + w }
      prevTimeDeltaRead := deltaOf s t
      prevTimeRead := t }
    (by dsimp only)
    (by dsimp only
        rw [ha]
        dsimp only
        simp only [List.length_append, natToBits_length]
        omega)
    (by dsimp only
        rw [hvlr2, ha]
        dsimp only
        rw [hlr])
    (by dsimp only
        rw [hvtrr2, ha]
        dsimp only
        rw [htrr])
    (by rw [ha]
        dsimp only
        exact hLT)
    hv
    (by rw [ha]
        dsimp only
        exact hpvw)
  obtain ⟨rv, r2, hread, hr2bits, hr2pos, hr2L, hr2T, hr2tr, hr2dr⟩ := hroundv
  refine ⟨rv, r2, ?_, ?_⟩
  · unfold Series.Append Series.Read
    simp only [hts, hread]
  · rw [hr2dr]

/-- C4: for a pair of consecutive appends with non-zero delta-of-delta
whose adjusted value fits the widest bucket (|adj_dd| < 2^31), the
decoder reversal (read payload, subtract the bias, add one when the
result is non-negative, accumulate into prev_delta_r) recovers exactly
the original delta, so Read returns exactly the appended timestamp and
leaves prev_delta_r equal to the encoder delta. -/
theorem c4_dd_decode_roundtrip (s : Series) (t v : Nat)
    (hbits : s.bs.bits ≠ [])
    (hpos : s.bs.bitPos = s.bs.bits.length)
    (ht : t < 2 ^ 64) (hv : v < 2 ^ 64)
    (hptw : s.prevTimeWrite < 2 ^ 64)
    (hpvw : s.prevValueWrite < 2 ^ 64)
    (htr : s.prevTimeRead = s.prevTimeWrite)
    (hdr : s.prevTimeDeltaRead = s.prevTimeDeltaWrite)
    (hlr : s.prevLeadingRead = s.prevLeadingWrite)
    (htrr : s.prevTrailingRead = s.prevTrailingWrite)
    (hLT : s.prevLeadingWrite + s.prevTrailingWrite ≤ 63)
    (hdd : ddOf s t ≠ 0)
    (hadj : (adjOf s t).natAbs < 2 ^ 31) :
    ∃ rv s2, (s.Append t v).Read = (.ok (t, rv), s2) ∧
      s2.prevTimeDeltaRead = deltaOf s t := by
  by_cases hA0 : (adjOf s t).natAbs < 2 ^ 6
  · have ha := appendTimestamp_b0 s t hbits hdd hA0
    rw [natToBits_two_two] at ha
    exact c4_core s t v [true, false] (2 ^ 6) 7 1 hbits hpos ht hv hptw hpvw htr hdr hlr
      htrr hLT hdd ha (fun rest => findZero_ctrl1 rest) (by decide) (by decide) (by decide)
      (by norm_num) (by norm_num) (by norm_num) (by norm_num)
      (by exact_mod_cast hA0)
  · by_cases hA1 : (adjOf s t).natAbs < 2 ^ 8
    · have ha := appendTimestamp_b1 s t hbits hdd hA0 hA1
      rw [natToBits_six_three] at ha
      exact c4_core s t v [true, true, false] (2 ^ 8) 9 2 hbits hpos ht hv hptw hpvw htr hdr
        hlr htrr hLT hdd ha (fun rest => findZero_ctrl2 rest) (by decide) (by decide)
        (by decide) (by norm_num) (by norm_num) (by norm_num) (by norm_num)
        (by exact_mod_cast hA1)
    · by_cases hA2 : (adjOf s t).natAbs < 2 ^ 11
      · have ha := appendTimestamp_b2 s t hbits hdd hA1 hA2
        rw [natToBits_fourteen_four] at ha
        exact c4_core s t v [true, true, true, false] (2 ^ 11) 12 3 hbits hpos ht hv hptw
          hpvw htr hdr hlr htrr hLT hdd ha (fun rest => findZero_ctrl3 rest) (by decide)
          (by decide) (by decide) (by norm_num) (by norm_num) (by norm_num) (by norm_num)
          (by exact_mod_cast hA2)
      · have ha := appendTimestamp_b3 s t hbits hdd hA2 hadj
        rw [natToBits_fifteen_four] at ha
        exact c4_core s t v [true, true, true, true] (2 ^ 31) 32 4 hbits hpos ht hv hptw
          hpvw htr hdr hlr htrr hLT hdd ha (fun rest => findZero_ctrl4 rest) (by decide)
          (by decide) (by decide) (by norm_num) (by norm_num) (by norm_num) (by norm_num)
          (by exact_mod_cast hadj)

/-- C4 witness: on the series holding (100, 761.0) with its reader
caught up, appending (190, 761.0) (delta-of-delta 30, bucket 0) and
reading returns exactly timestamp 190 and prev_delta_r = 90. -/
theorem c4_witness :
    ∃ rv s2, (((emptySeries.Append 100 val761).Read.2).Append 190 val761).Read =
        (.ok (190, rv), s2) ∧
      s2.prevTimeDeltaRead = deltaOf ((emptySeries.Append 100 val761).Read.2) 190 :=
  c4_dd_decode_roundtrip ((emptySeries.Append 100 val761).Read.2) 190 val761
    (by decide) (by decide) (by decide) (by decide) (by decide) (by decide) (by decide)
    (by decide) (by decide) (by decide) (by decide) (by decide) (by decide)

theorem getElem_two_after (l tl : List Bool) (a b : Bool) :
    (l ++ a :: b :: tl)[l.length + 1]? = some b := by
  rw [List.getElem?_append_right (by omega)]
  simp

/-- C5: on a value append with non-zero XOR the encoder chooses the
reuse sub-format exactly when leading ≥ prev_leading_w, trailing ≥
prev_trailing_w and prev_block_width < 5 + 6 + block_size (the second
control bit is 1 exactly then); in the reuse case it emits control bits
1 then 1 followed by exactly prev_block_width = 64 - prev_leading_w -
prev_trailing_w payload bits holding xor >> prev_trailing_w, leaves the
writer prev_leading_w and prev_trailing_w unchanged, and the matching
readNextValue succeeds leaving the reader prev_leading_r and
prev_trailing_r unchanged. -/
theorem c5_reuse_subformat (s : Series) (v : Nat) (r : Series)
    (hv : v < 2 ^ 64) (hpv : s.prevValueWrite < 2 ^ 64)
    (hLT : s.prevLeadingWrite + s.prevTrailingWrite ≤ 63)
    (hx : Nat.xor v s.prevValueWrite ≠ 0)
    (hrb : r.bs.bits = (s.appendValue v).bs.bits)
    (hrp : r.bs.bitPos = s.bs.bits.length)
    (hrL : r.prevLeadingRead = s.prevLeadingWrite)
    (hrT : r.prevTrailingRead = s.prevTrailingWrite) :
    ((s.appendValue v).bs.bits[s.bs.bits.length + 1]? = some true ↔
      (s.prevLeadingWrite ≤ clampLeading (Nat.xor v s.prevValueWrite) ∧
       s.prevTrailingWrite ≤ ctz64 (Nat.xor v s.prevValueWrite) ∧
       64 - s.prevLeadingWrite - s.prevTrailingWrite <
         5 + 6 + (64 - clampLeading (Nat.xor v s.prevValueWrite) -
           ctz64 (Nat.xor v s.prevValueWrite)))) ∧
    ((s.prevLeadingWrite ≤ clampLeading (Nat.xor v s.prevValueWrite) ∧
      s.prevTrailingWrite ≤ ctz64 (Nat.xor v s.prevValueWrite) ∧
      64 - s.prevLeadingWrite - s.prevTrailingWrite <
        5 + 6 + (64 - clampLeading (Nat.xor v s.prevValueWrite) -
          ctz64 (Nat.xor v s.prevValueWrite))) →
      (s.appendValue v).bs.bits = s.bs.bits ++ true :: true ::
          natToBits (Nat.xor v s.prevValueWrite >>> s.prevTrailingWrite)
            (64 - s.prevLeadingWrite - s.prevTrailingWrite) ∧
        Nat.xor v s.prevValueWrite >>> s.prevTrailingWrite <
          2 ^ (64 - s.prevLeadingWrite - s.prevTrailingWrite) ∧
        (s.appendValue v).prevLeadingWrite = s.prevLeadingWrite ∧
        (s.appendValue v).prevTrailingWrite = s.prevTrailingWrite ∧
        ∃ rv r2, r.readNextValue = (.ok rv, r2) ∧
          r2.prevLeadingRead = r.prevLeadingRead ∧
          r2.prevTrailingRead = r.prevTrailingRead) := by
  have hx64 : Nat.xor v s.prevValueWrite < 2 ^ 64 := Nat.xor_lt_two_pow hv hpv
  have hbeq := blockSizeOf_eq (Nat.xor v s.prevValueWrite) hx hx64
  have hsum := clampLeading_add_ctz_le (Nat.xor v s.prevValueWrite) hx hx64
  have hsub : sub64 (sub64 64 s.prevLeadingWrite) s.prevTrailingWrite =
      64 - s.prevLeadingWrite - s.prevTrailingWrite := by
    have hi : sub64 64 s.prevLeadingWrite = 64 - s.prevLeadingWrite :=
      sub64_small (by omega) (by norm_num)
    rw [hi, sub64_small (by omega) (by omega)]
  by_cases hc : s.prevLeadingWrite ≤ clampLeading (Nat.xor v s.prevValueWrite) ∧
      s.prevTrailingWrite ≤ ctz64 (Nat.xor v s.prevValueWrite) ∧
      sub64 (sub64 64 s.prevLeadingWrite) s.prevTrailingWrite <
        5 + 6 + blockSizeOf (Nat.xor v s.prevValueWrite)
  · have hcp : s.prevLeadingWrite ≤ clampLeading (Nat.xor v s.prevValueWrite) ∧
        s.prevTrailingWrite ≤ ctz64 (Nat.xor v s.prevValueWrite) ∧
        64 - s.prevLeadingWrite - s.prevTrailingWrite <
          5 + 6 + (64 - clampLeading (Nat.xor v s.prevValueWrite) -
            ctz64 (Nat.xor v s.prevValueWrite)) := by
      rw [← hbeq, ← hsub]
      exact hc
    have ha := appendValue_reuse s v hx hc _ _ rfl rfl
    have hbound : Nat.xor v s.prevValueWrite >>> s.prevTrailingWrite <
        2 ^ (64 - s.prevLeadingWrite - s.prevTrailingWrite) := by
      have hcz : s.prevLeadingWrite ≤ clz64 (Nat.xor v s.prevValueWrite) :=
        le_trans hc.1 (clampLeading_le_clz _)
      have hxlt : Nat.xor v s.prevValueWrite < 2 ^ (64 - s.prevLeadingWrite) :=
        lt_of_lt_of_le (lt_two_pow_clz64 _ hx64)
          (Nat.pow_le_pow_right (by norm_num) (by omega))
      rw [Nat.shiftRight_eq_div_pow]
      rw [Nat.div_lt_iff_lt_mul (Nat.pos_pow_of_pos _ (by norm_num))]
      calc Nat.xor v s.prevValueWrite < 2 ^ (64 - s.prevLeadingWrite) := hxlt
        _ = 2 ^ (64 - s.prevLeadingWrite - s.prevTrailingWrite) * 2 ^ s.prevTrailingWrite := by
          rw [← pow_add]
          congr 1
          omega
    refine ⟨?_, fun hcond => ?_⟩
    · rw [ha, hsub]
      dsimp only
      rw [getElem_two_after]
      simp [hcp]
    · refine ⟨by rw [ha, hsub], hbound, by rw [ha], by rw [ha], ?_⟩
      exact ⟨_, _, readNextValue_reuse_at r s.bs.bits []
        (Nat.xor v s.prevValueWrite >>> s.prevTrailingWrite)
        (sub64 (sub64 64 s.prevLeadingWrite) s.prevTrailingWrite) _
        (by rw [hrL, hrT]) (by rw [hrb, ha]; simp) hrp rfl, rfl, rfl⟩
  · have hcpn : ¬ (s.prevLeadingWrite ≤ clampLeading (Nat.xor v s.prevValueWrite) ∧
        s.prevTrailingWrite ≤ ctz64 (Nat.xor v s.prevValueWrite) ∧
        64 - s.prevLeadingWrite - s.prevTrailingWrite <
          5 + 6 + (64 - clampLeading (Nat.xor v s.prevValueWrite) -
            ctz64 (Nat.xor v s.prevValueWrite))) := by
      rw [← hbeq, ← hsub]
      exact hc
    have ha := appendValue_fresh s v hx hc _ rfl
    constructor
    · rw [ha]
      dsimp only
      rw [getElem_two_after]
      simp [hcpn]
    · intro hcond
      exact absurd hcond hcpn

/-- C5 witness: the reuse sub-format fires on the concrete pair and
behaves as stated. -/
theorem c5_witness :
    ((c5wSeries.appendValue c5wValue).bs.bits[c5wSeries.bs.bits.length + 1]? = some true ↔
      (c5wSeries.prevLeadingWrite ≤ clampLeading (Nat.xor c5wValue c5wSeries.prevValueWrite) ∧
       c5wSeries.prevTrailingWrite ≤ ctz64 (Nat.xor c5wValue c5wSeries.prevValueWrite) ∧
       64 - c5wSeries.prevLeadingWrite - c5wSeries.prevTrailingWrite <
         5 + 6 + (64 - clampLeading (Nat.xor c5wValue c5wSeries.prevValueWrite) -
           ctz64 (Nat.xor c5wValue c5wSeries.prevValueWrite)))) ∧
    ((c5wSeries.prevLeadingWrite ≤ clampLeading (Nat.xor c5wValue c5wSeries.prevValueWrite) ∧
      c5wSeries.prevTrailingWrite ≤ ctz64 (Nat.xor c5wValue c5wSeries.prevValueWrite) ∧
      64 - c5wSeries.prevLeadingWrite - c5wSeries.prevTrailingWrite <
        5 + 6 + (64 - clampLeading (Nat.xor c5wValue c5wSeries.prevValueWrite) -
          ctz64 (Nat.xor c5wValue c5wSeries.prevValueWrite))) →
      (c5wSeries.appendValue c5wValue).bs.bits = c5wSeries.bs.bits ++ true :: true ::
          natToBits (Nat.xor c5wValue c5wSeries.prevValueWrite >>> c5wSeries.prevTrailingWrite)
            (64 - c5wSeries.prevLeadingWrite - c5wSeries.prevTrailingWrite) ∧
        Nat.xor c5wValue c5wSeries.prevValueWrite >>> c5wSeries.prevTrailingWrite <
          2 ^ (64 - c5wSeries.prevLeadingWrite - c5wSeries.prevTrailingWrite) ∧
        (c5wSeries.appendValue c5wValue).prevLeadingWrite = c5wSeries.prevLeadingWrite ∧
        (c5wSeries.appendValue c5wValue).prevTrailingWrite = c5wSeries.prevTrailingWrite ∧
        ∃ rv r2, c5wReader.readNextValue = (.ok rv, r2) ∧
          r2.prevLeadingRead = c5wReader.prevLeadingRead ∧
          r2.prevTrailingRead = c5wReader.prevTrailingRead) :=
  c5_reuse_subformat c5wSeries c5wValue c5wReader (by decide) (by decide) (by decide)
    (by decide) rfl (by decide) (by decide) (by decide)
